import Mathlib

/-!
Verification of the SQL safety gate of the `diamond_chat` repository.

The development shallowly embeds the relevant Python code:
  * `src/llm/validator.py` — `SQLValidator.validate` and `SQLValidator.enforce_limit`
  * `src/llm/sql_agent.py` — `SQLAgent._extract_sql`
  * `src/core/config.py`  — the shipped limit/table configuration

Strings are modelled as `List Char`.  Python's character classes
(`str.strip` whitespace, the regex classes `\s`, `\d`, `\w` and
`str.upper`/`str.lower`) are modelled at their ASCII meaning, which is the
domain the validator is specified over (SQL text).
-/

namespace DiamondChat

/-- Whitespace as stripped by Python `str.strip()` / matched by `\s` (ASCII part). -/
def isPySpace (c : Char) : Bool :=
  c == ' ' || c == '\t' || c == '\n' || c == '\r' || c == '\x0b' || c == '\x0c'

/-- Word characters of the regex class `\w` (ASCII part), used by `\b` boundaries. -/
def isWordChar (c : Char) : Bool := c.isAlphanum || c == '_'

/-- Python `str.strip()`: remove leading and trailing whitespace. -/
def pyStrip (s : List Char) : List Char :=
  ((s.dropWhile isPySpace).reverse.dropWhile isPySpace).reverse

/-- Python `str.rstrip()`: remove trailing whitespace. -/
def pyRstrip (s : List Char) : List Char :=
  (s.reverse.dropWhile isPySpace).reverse

/-- Python `str.rstrip(';')`: remove all trailing `;` characters (and only those). -/
def pyRstripSemi (s : List Char) : List Char :=
  (s.reverse.dropWhile (fun c => c == ';')).reverse

/-- Substring test, modelling Python's `needle in haystack` on strings. -/
def containsSub (needle : List Char) : List Char → Bool
  | [] => needle.isEmpty
  | c :: cs => needle.isPrefixOf (c :: cs) || containsSub needle cs

/-- Cut one line at the first `--`, modelling one line's effect of
`re.sub(r'--.*$', '', sql, flags=re.MULTILINE)` (`.` does not cross `\n`). -/
def cutLineComment : List Char → List Char
  | [] => []
  | '-' :: '-' :: _ => []
  | c :: cs => c :: cutLineComment cs

/-- Removal of `--` line comments: the multiline regex acts per `\n`-separated line. -/
def removeLineComments (s : List Char) : List Char :=
  List.intercalate ['\n'] ((s.splitOn '\n').map cutLineComment)

/-- Locate the first `*/` and return what follows it (the continuation of the
non-greedy `.*?\*/` of `re.sub(r'/\*.*?\*/', '', sql, flags=re.DOTALL)`). -/
def findStar : List Char → Option (List Char)
  | '*' :: '/' :: rest => some rest
  | _ :: cs => findStar cs
  | [] => none

/-- Fueled scanner for `re.sub(r'/\*.*?\*/', '', ·)`: at each `/*` the shortest
closing `*/` is sought; when none exists no later occurrence can match either
(a match needs a `*/` further right), so the rest is copied verbatim.  The fuel
is the length of the scanned list, which always suffices. -/
def removeBlockF : Nat → List Char → List Char
  | _, [] => []
  | 0, s => s
  | f + 1, '/' :: '*' :: rest =>
    (match findStar rest with
     | some rest2 => removeBlockF f rest2
     | none => '/' :: '*' :: rest)
  | f + 1, c :: cs => c :: removeBlockF f cs

/-- Removal of `/* */` block comments. -/
def removeBlockComments (s : List Char) : List Char := removeBlockF s.length s

/-- The comment-stripped statement `sql_clean` computed by `validate`. -/
def cleanOf (sql : List Char) : List Char :=
  removeBlockComments (removeLineComments sql)

/-- The denylist `SQLValidator.DANGEROUS_KEYWORDS`, in source order. -/
def DANGEROUS_KEYWORDS : List (List Char) :=
  ["INSERT".data, "UPDATE".data, "DELETE".data, "DROP".data, "ALTER".data,
   "CREATE".data, "TRUNCATE".data, "GRANT".data, "REVOKE".data, "EXEC".data,
   "EXECUTE".data, "MERGE".data, "REPLACE".data, "CALL".data, "LOCK".data,
   "UNLOCK".data]

/-- Left word boundary: `\b` holds before the keyword when there is no
preceding character or the preceding character is not a word character
(all keyword characters are word characters). -/
def boundaryOk : Option Char → Bool
  | none => true
  | some c => !isWordChar c

/-- Right word boundary after the keyword. -/
def rightBoundary : List Char → Bool
  | [] => true
  | c :: _ => !isWordChar c

/-- Scan for `re.search(rf'\b{kw}\b', s)`: `prev` is the character left of the
current position. -/
def hasWordMatchAux (kw : List Char) : Option Char → List Char → Bool
  | prev, [] => boundaryOk prev && kw.isPrefixOf [] && rightBoundary []
  | prev, c :: cs =>
    (boundaryOk prev && kw.isPrefixOf (c :: cs) && rightBoundary ((c :: cs).drop kw.length))
    || hasWordMatchAux kw (some c) cs

/-- Whether `re.search(rf'\b{kw}\b', s)` finds a match anywhere in `s`. -/
def hasWordMatch (kw s : List Char) : Bool := hasWordMatchAux kw none s

/-- Validator configuration: the allowed table held by the `SQLValidator`
instance together with the query-limit settings from `src/core/config.py`. -/
structure Policy where
  allowed_table : List Char
  default_limit : Int
  max_limit : Int
  deriving DecidableEq

/-- The shipped configuration: `TABLE_NAME='dev_diamond2'`,
`DEFAULT_QUERY_LIMIT=200`, `MAX_QUERY_LIMIT=1000`. -/
def settingsPolicy : Policy :=
  { allowed_table := "dev_diamond2".data, default_limit := 200, max_limit := 1000 }

/-- Rejection reasons, one per distinct error message returned by `validate`. -/
inductive RejectReason where
  | emptyQuery
  | multipleStatements
  | parseError
  | forbiddenKeyword (kw : List Char)
  | notASelect
  | tableNotAllowed
  deriving DecidableEq

/-- Result of `validate`: `(True, None)` or `(False, message)` in the source. -/
inductive Verdict where
  | accepted
  | rejected (r : RejectReason)
  deriving DecidableEq

/-- Embedding of `SQLValidator.validate`.  Steps, in source order: empty check
on the raw string; comment stripping; multi-statement check
(`';' in sql_clean.rstrip(';')`); parse (`sqlparse.parse(sql_clean)[0]` raises,
hence is caught as a parse error, exactly when `sql_clean` is the empty string,
since `sqlparse.parse('')` returns no statements); keyword denylist on the
uppercased cleaned text, scanning keywords in list order; `SELECT` prefix check
on the stripped uppercased text; allowed-table substring check on the lowered
cleaned text.  The LIMIT-presence step of the source only logs a warning and
does not affect the verdict. -/
def validate (p : Policy) (sql : List Char) : Verdict :=
  if pyStrip sql = [] then .rejected .emptyQuery
  else if (';' ∈ pyRstripSemi (cleanOf sql)) then .rejected .multipleStatements
  else if cleanOf sql = [] then .rejected .parseError
  else
    match List.find? (fun kw => hasWordMatch kw ((cleanOf sql).map Char.toUpper))
        DANGEROUS_KEYWORDS with
    | some kw => .rejected (.forbiddenKeyword kw)
    | none =>
      if !("SELECT".data.isPrefixOf (pyStrip ((cleanOf sql).map Char.toUpper))) then
        .rejected .notASelect
      else if !(containsSub (p.allowed_table.map Char.toLower)
          ((cleanOf sql).map Char.toLower)) then
        .rejected .tableNotAllowed
      else .accepted

/-- Case-insensitive character comparison used to model `re.IGNORECASE`:
`upperEq c d` holds when `c` matches the (uppercase) pattern letter `d`. -/
def upperEq (c d : Char) : Bool := Char.toUpper c == d

/-- The `\d+` tail of the pattern `LIMIT\s+\d+`: at least one digit, taken
greedily; returns the remainder after the match. -/
def needDigit : List Char → Option (List Char)
  | [] => none
  | y :: ys => if y.isDigit then some (ys.dropWhile Char.isDigit) else none

/-- The `\s+\d+` tail of the pattern `LIMIT\s+\d+`: at least one whitespace
character taken greedily, then the digits.  (Backtracking never helps here
since `\s` and `\d` are disjoint.) -/
def afterLimit5 : List Char → Option (List Char)
  | [] => none
  | x :: xs => if isPySpace x then needDigit (xs.dropWhile isPySpace) else none

/-- Attempt to match `LIMIT\s+\d+` (case-insensitively) at the head of the
list; on success return the remainder after the match. -/
def matchLimitAt : List Char → Option (List Char)
  | a :: b :: c :: d :: e :: rest =>
    if upperEq a 'L' && upperEq b 'I' && upperEq c 'M' && upperEq d 'I' && upperEq e 'T' then
      afterLimit5 rest
    else none
  | _ => none

/-- Fueled scanner for `re.sub(r'LIMIT\s+\d+', rep, sql, flags=re.IGNORECASE)`:
every leftmost non-overlapping match is replaced by `rep`; scanning resumes
after the match.  The fuel is the length of the scanned list, which always
suffices since a match consumes at least seven characters. -/
def subLimitF (rep : List Char) : Nat → List Char → List Char
  | _, [] => []
  | 0, s => s
  | f + 1, c :: cs =>
    (match matchLimitAt (c :: cs) with
     | some rest => rep ++ subLimitF rep f rest
     | none => c :: subLimitF rep f cs)

/-- Replacement of every `LIMIT <n>` clause by `rep`. -/
def subLimit (rep : List Char) (s : List Char) : List Char := subLimitF rep s.length s

/-- The effective limit computed by `enforce_limit`:
`limit = limit or settings.DEFAULT_QUERY_LIMIT` (Python `or` treats both `None`
and `0` as absent), then `if limit > settings.MAX_QUERY_LIMIT: limit = MAX`. -/
def effLimit (p : Policy) (limit : Option Int) : Int :=
  let l := match limit with
    | none => p.default_limit
    | some v => if v = 0 then p.default_limit else v
  if l > p.max_limit then p.max_limit else l

/-- The replacement text `f'LIMIT {limit}'`. -/
def limitRep (l : Int) : List Char := "LIMIT ".data ++ (toString l).data

/-- Embedding of `SQLValidator.enforce_limit`.  If `'LIMIT'` occurs in the
uppercased statement, every `LIMIT\s+\d+` match is substituted (in particular,
if none matches the statement is returned unchanged); otherwise trailing
whitespace and then trailing `;` are stripped and
`f"{sql} LIMIT {limit};"` is returned. -/
def enforce_limit (p : Policy) (sql : List Char) (limit : Option Int) : List Char :=
  if containsSub "LIMIT".data (sql.map Char.toUpper) then
    subLimit (limitRep (effLimit p limit)) sql
  else
    pyRstripSemi (pyRstrip sql) ++ " LIMIT ".data ++ (toString (effLimit p limit)).data ++ [';']

/-- Whether the statement contains an actual `LIMIT\s+\d+` clause (anywhere,
case-insensitively). -/
def hasLimitNumClause : List Char → Bool
  | [] => false
  | c :: cs => (matchLimitAt (c :: cs)).isSome || hasLimitNumClause cs

/-- Python `str.endswith(';')`. -/
def endsWithSemi (s : List Char) : Bool :=
  match s.reverse with
  | [] => false
  | c :: _ => c == ';'

/-- Fueled scanner for `re.sub(pat + optional newline, '', s)` with a literal
pattern, used for the markdown fence patterns ```` ```sql\n? ```` and
```` ```\n? ````: each occurrence of `pat`, together with one directly
following newline if present, is removed. -/
def stripFencesF (pat : List Char) : Nat → List Char → List Char
  | _, [] => []
  | 0, s => s
  | f + 1, c :: cs =>
    if pat.isPrefixOf (c :: cs) then
      (match (c :: cs).drop pat.length with
       | '\n' :: r => stripFencesF pat f r
       | r => stripFencesF pat f r)
    else c :: stripFencesF pat f cs

/-- Removal of markdown code fences: first `re.sub(r'```sql\n?', '', ·)`,
then `re.sub(r'```\n?', '', ·)`. -/
def removeFences (s : List Char) : List Char :=
  let s1 := stripFencesF "```sql".data s.length s
  stripFencesF "```".data s1.length s1

/-- Removal of a leading label, modelling
`re.sub(r'^(SQL Query:|Query:|Answer:)\s*', '', s, flags=re.IGNORECASE)`
(anchored at the start of the string; alternatives tried in order). -/
def dropLabel (s : List Char) : List Char :=
  if "SQL QUERY:".data.isPrefixOf ((s.take 10).map Char.toUpper) then
    (s.drop 10).dropWhile isPySpace
  else if "QUERY:".data.isPrefixOf ((s.take 6).map Char.toUpper) then
    (s.drop 6).dropWhile isPySpace
  else if "ANSWER:".data.isPrefixOf ((s.take 7).map Char.toUpper) then
    (s.drop 7).dropWhile isPySpace
  else s

/-- The loop filter of `_extract_sql`: a stripped line is kept when it is
non-empty and starts with neither `#` nor `--`. -/
def keepLine (t : List Char) : Bool :=
  !t.isEmpty && !("#".data.isPrefixOf t) && !("--".data.isPrefixOf t)

/-- The line loop of `_extract_sql`: strip each line, drop filtered lines, and
stop at (including) the first kept line that ends in `;`. -/
def collectLines : List (List Char) → List (List Char)
  | [] => []
  | l :: ls =>
    let t := pyStrip l
    if keepLine t then
      if endsWithSemi t then [t] else t :: collectLines ls
    else collectLines ls

/-- Embedding of `SQLAgent._extract_sql`: remove fences and a leading label,
process the lines, join the kept lines with single spaces, strip, and append a
`;` when the result does not already end in one. -/
def extract_sql (response : List Char) : List Char :=
  let sql := pyStrip (List.intercalate [' ']
    (collectLines ((dropLabel (removeFences response)).splitOn '\n')))
  if endsWithSemi sql then sql else sql ++ [';']

/-- Modelled from the spec (claim C3's wording, for the counterexample):
stripping a single trailing `;` from the text. -/
def stripOneTrailingSemi (s : List Char) : List Char :=
  if endsWithSemi s then s.dropLast else s

/-- Modelled from the spec (claim C2's wording, for the counterexample): the
raw string contains some denylisted keyword as a standalone word, in any
letter case. -/
def containsKeywordWord (s : List Char) : Bool :=
  DANGEROUS_KEYWORDS.any (fun kw => hasWordMatch kw (s.map Char.toUpper))

/-! Helper lemmas. -/

theorem containsSub_of_isPrefixOf {needle s : List Char}
    (h : needle.isPrefixOf s = true) : containsSub needle s = true := by
  cases s with
  | nil => cases needle with
    | nil => rfl
    | cons c cs => simp [List.isPrefixOf] at h
  | cons c cs => simp [containsSub, h]

theorem containsSub_cons {needle cs : List Char} (c : Char)
    (h : containsSub needle cs = true) : containsSub needle (c :: cs) = true := by
  simp [containsSub, h]

theorem matchLimitAt_isPrefixOf {s r : List Char} (h : matchLimitAt s = some r) :
    "LIMIT".data.isPrefixOf (s.map Char.toUpper) = true := by
  rcases s with _ | ⟨a, _ | ⟨b, _ | ⟨c, _ | ⟨d, _ | ⟨e, rest⟩⟩⟩⟩⟩ <;>
    simp only [matchLimitAt] at h <;> try exact Option.noConfusion h
  split at h
  · rename_i hcond
    simp only [upperEq, Bool.and_eq_true, beq_iff_eq] at hcond
    obtain ⟨⟨⟨⟨ha, hb⟩, hc⟩, hd⟩, he⟩ := hcond
    simp [List.isPrefixOf, ha, hb, hc, hd, he]
  · simp at h

theorem hasLimitNumClause_containsSub : ∀ s : List Char,
    hasLimitNumClause s = true → containsSub "LIMIT".data (s.map Char.toUpper) = true := by
  intro s
  induction s with
  | nil => intro h; simp [hasLimitNumClause] at h
  | cons c cs ih =>
    intro h
    simp only [hasLimitNumClause, Bool.or_eq_true] at h
    rcases h with h | h
    · obtain ⟨r, hr⟩ := Option.isSome_iff_exists.mp h
      exact containsSub_of_isPrefixOf (matchLimitAt_isPrefixOf hr)
    · exact containsSub_cons _ (ih h)

example : validate settingsPolicy "SELECT * FROM public.dev_diamond2 LIMIT 10;".data
    = .accepted := by decide

example : validate settingsPolicy "INSERT INTO dev_diamond2 (col) VALUES (1);".data
    = .rejected (.forbiddenKeyword "INSERT".data) := by decide

example : validate settingsPolicy "SELECT * FROM dev_diamond2; SELECT * FROM users;".data
    = .rejected .multipleStatements := by decide

example : validate settingsPolicy "SELECT * FROM other_table LIMIT 10;".data
    = .rejected .tableNotAllowed := by decide

example : validate settingsPolicy "".data = .rejected .emptyQuery := by decide

example : validate settingsPolicy "   ".data = .rejected .emptyQuery := by decide

example : enforce_limit settingsPolicy "SELECT * FROM dev_diamond2".data none
    = "SELECT * FROM dev_diamond2 LIMIT 200;".data := by decide

example : enforce_limit settingsPolicy "SELECT * FROM dev_diamond2 LIMIT 10".data (some 5)
    = "SELECT * FROM dev_diamond2 LIMIT 5".data := by decide

example : enforce_limit settingsPolicy "SELECT * FROM dev_diamond2 LIMIT 10000".data none
    = "SELECT * FROM dev_diamond2 LIMIT 200".data := by decide

example : validate settingsPolicy "SELECT limit_col FROM dev_diamond2".data
    = .accepted := by decide

example : enforce_limit settingsPolicy "SELECT limit_col FROM dev_diamond2".data none
    = "SELECT limit_col FROM dev_diamond2".data := by decide

example : extract_sql "SELECT 1;;".data = "SELECT 1;;".data := by decide

example : extract_sql "```sql\nSELECT *\nFROM dev_diamond2;\nexplanation\n```".data
    = "SELECT * FROM dev_diamond2;".data := by decide

example : validate settingsPolicy "SELECT * FROM dev_diamond2;;".data = .accepted := by
  decide

theorem appendSemi_ends (s : List Char) :
    ∃ t, (if endsWithSemi s then s else s ++ [';']) = t ++ [';'] := by
  by_cases h : endsWithSemi s = true
  · rw [if_pos h]
    unfold endsWithSemi at h
    rcases hr : s.reverse with _ | ⟨c, u⟩
    · rw [hr] at h; simp at h
    · rw [hr] at h
      simp only [beq_iff_eq] at h
      refine ⟨u.reverse, ?_⟩
      have := congrArg List.reverse hr
      simpa [h] using this
  · rw [if_neg h]
    exact ⟨s, rfl⟩

theorem length_dropWhile_le (p : Char → Bool) :
    ∀ l : List Char, (l.dropWhile p).length ≤ l.length := by
  intro l
  induction l with
  | nil => simp
  | cons a l ih =>
    rw [List.dropWhile_cons]
    split
    · exact Nat.le_trans ih (Nat.le_succ _)
    · simp

theorem needDigit_length {s r : List Char} (h : needDigit s = some r) :
    r.length + 1 ≤ s.length := by
  cases s with
  | nil => exact Option.noConfusion h
  | cons y ys =>
    simp only [needDigit] at h
    split at h
    · have h1 : ys.dropWhile Char.isDigit = r := Option.some.inj h
      have h2 : r.length ≤ ys.length := h1 ▸ length_dropWhile_le _ ys
      simp only [List.length_cons]
      omega
    · exact Option.noConfusion h

theorem afterLimit5_length {s r : List Char} (h : afterLimit5 s = some r) :
    r.length + 2 ≤ s.length := by
  cases s with
  | nil => exact Option.noConfusion h
  | cons x xs =>
    simp only [afterLimit5] at h
    split at h
    · have h1 := needDigit_length h
      have h2 := length_dropWhile_le isPySpace xs
      simp only [List.length_cons]
      omega
    · exact Option.noConfusion h

theorem matchLimitAt_length {s r : List Char} (h : matchLimitAt s = some r) :
    r.length + 7 ≤ s.length := by
  rcases s with _ | ⟨a, _ | ⟨b, _ | ⟨c, _ | ⟨d, _ | ⟨e, rest⟩⟩⟩⟩⟩ <;>
    simp only [matchLimitAt] at h <;> try exact Option.noConfusion h
  split at h
  · have := afterLimit5_length h
    simp only [List.length_cons]
    omega
  · exact Option.noConfusion h

theorem subLimitF_fuel (rep : List Char) :
    ∀ f1 f2 (s : List Char), s.length ≤ f1 → s.length ≤ f2 →
      subLimitF rep f1 s = subLimitF rep f2 s := by
  intro f1
  induction f1 with
  | zero =>
    intro f2 s h1 _
    have hs : s = [] := List.length_eq_zero.mp (Nat.le_zero.mp h1)
    subst hs
    cases f2 <;> rfl
  | succ f ih =>
    intro f2 s h1 h2
    cases s with
    | nil => cases f2 <;> rfl
    | cons c cs =>
      cases f2 with
      | zero => simp at h2
      | succ g =>
        cases hm : matchLimitAt (c :: cs) with
        | some rest =>
          have hl := matchLimitAt_length hm
          simp only [List.length_cons] at h1 h2 hl
          show (match matchLimitAt (c :: cs) with
            | some rest => rep ++ subLimitF rep f rest
            | none => c :: subLimitF rep f cs) =
            (match matchLimitAt (c :: cs) with
            | some rest => rep ++ subLimitF rep g rest
            | none => c :: subLimitF rep g cs)
          rw [hm]
          exact congrArg (rep ++ ·) (ih g rest (by omega) (by omega))
        | none =>
          simp only [List.length_cons] at h1 h2
          show (match matchLimitAt (c :: cs) with
            | some rest => rep ++ subLimitF rep f rest
            | none => c :: subLimitF rep f cs) =
            (match matchLimitAt (c :: cs) with
            | some rest => rep ++ subLimitF rep g rest
            | none => c :: subLimitF rep g cs)
          rw [hm]
          exact congrArg (c :: ·) (ih g cs (by omega) (by omega))

theorem subLimit_cons_some {rep : List Char} {c : Char} {cs rest : List Char}
    (h : matchLimitAt (c :: cs) = some rest) :
    subLimit rep (c :: cs) = rep ++ subLimit rep rest := by
  have hl := matchLimitAt_length h
  simp only [List.length_cons] at hl
  unfold subLimit
  simp only [List.length_cons, subLimitF, h]
  rw [subLimitF_fuel rep cs.length rest.length rest (by omega) (Nat.le_refl _)]

theorem subLimit_cons_none {rep : List Char} {c : Char} {cs : List Char}
    (h : matchLimitAt (c :: cs) = none) :
    subLimit rep (c :: cs) = c :: subLimit rep cs := by
  unfold subLimit
  simp only [List.length_cons, subLimitF, h]

theorem dropWhile_head_false (p : Char → Bool) :
    ∀ (l : List Char) (c : Char) (t : List Char), l.dropWhile p = c :: t → p c = false := by
  intro l
  induction l with
  | nil => intro c t h; exact List.noConfusion h
  | cons a l ih =>
    intro c t h
    rw [List.dropWhile_cons] at h
    split at h
    · exact ih c t h
    · rename_i hpa
      obtain ⟨rfl, -⟩ := List.cons.injEq .. ▸ h
      exact Bool.of_not_eq_true hpa

theorem matchLimitAt_rest_not_digit {s r : List Char} (h : matchLimitAt s = some r) :
    ∀ (c : Char) (t : List Char), r = c :: t → c.isDigit = false := by
  rcases s with _ | ⟨a, _ | ⟨b, _ | ⟨c', _ | ⟨d, _ | ⟨e, rest⟩⟩⟩⟩⟩ <;>
    simp only [matchLimitAt] at h <;> try exact Option.noConfusion h
  split at h
  · cases rest with
    | nil => exact Option.noConfusion h
    | cons x xs =>
      simp only [afterLimit5] at h
      split at h
      · rcases hd : xs.dropWhile isPySpace with _ | ⟨y, ys⟩ <;> rw [hd] at h
        · exact Option.noConfusion h
        · simp only [needDigit] at h
          split at h
          · have h1 : ys.dropWhile Char.isDigit = r := Option.some.inj h
            intro c t hct
            exact dropWhile_head_false Char.isDigit ys c t (h1.symm ▸ hct)
          · exact Option.noConfusion h
      · exact Option.noConfusion h
  · exact Option.noConfusion h

theorem matchLimitAt_head_notL {c : Char} (cs : List Char) (h : upperEq c 'L' = false) :
    matchLimitAt (c :: cs) = none := by
  rcases cs with _ | ⟨b, _ | ⟨c2, _ | ⟨d, _ | ⟨e, rest⟩⟩⟩⟩ <;> simp [matchLimitAt, h]

theorem upperEq_L_of_space {c : Char} (h : isPySpace c = true) : upperEq c 'L' = false := by
  simp only [isPySpace, Bool.or_eq_true, beq_iff_eq] at h
  rcases h with ((((rfl | rfl) | rfl) | rfl) | rfl) | rfl <;> decide

theorem matchLimitAt_head_space {c : Char} (cs : List Char) (h : isPySpace c = true) :
    matchLimitAt (c :: cs) = none :=
  matchLimitAt_head_notL cs (upperEq_L_of_space h)

theorem subLimit_spaces (rep : List Char) :
    ∀ sp t : List Char, (∀ a ∈ sp, isPySpace a = true) →
      subLimit rep (sp ++ t) = sp ++ subLimit rep t := by
  intro sp
  induction sp with
  | nil => intro t _; simp
  | cons a sp' ih =>
    intro t h
    have ha : isPySpace a = true := h a (List.mem_cons_self a sp')
    rw [List.cons_append, subLimit_cons_none (matchLimitAt_head_space _ ha),
      ih t (fun b hb => h b (List.mem_cons_of_mem a hb)), List.cons_append]

theorem dropWhile_space_append :
    ∀ sp t : List Char, (∀ a ∈ sp, isPySpace a = true) →
      (sp ++ t).dropWhile isPySpace = t.dropWhile isPySpace := by
  intro sp
  induction sp with
  | nil => intro t _; rfl
  | cons a sp' ih =>
    intro t h
    rw [List.cons_append, List.dropWhile_cons_of_pos (h a (List.mem_cons_self a sp')),
      ih t (fun b hb => h b (List.mem_cons_of_mem a hb))]

theorem subLimit_head? (rep : List Char) (t : List Char) :
    (subLimit rep t).head? = t.head? ∨ ∃ u, subLimit rep t = rep ++ u := by
  cases t with
  | nil => left; rfl
  | cons c cs =>
    cases hm : matchLimitAt (c :: cs) with
    | some rest => right; exact ⟨subLimit rep rest, subLimit_cons_some hm⟩
    | none => left; rw [subLimit_cons_none hm]; rfl

theorem matchLimitAt_rep200 (t : List Char)
    (ht : ∀ c u, t = c :: u → c.isDigit = false) :
    matchLimitAt ('L':: 'I':: 'M':: 'I':: 'T':: ' ':: '2':: '0':: '0'::t) = some t := by
  have h1 : (upperEq 'L' 'L' && upperEq 'I' 'I' && upperEq 'M' 'M' && upperEq 'I' 'I'
      && upperEq 'T' 'T') = true := by decide
  simp only [matchLimitAt, h1, if_true]
  have h2 : isPySpace ' ' = true := by decide
  simp only [afterLimit5, h2, if_true]
  rw [List.dropWhile_cons_of_neg (by decide)]
  simp only [needDigit]
  rw [if_pos (by decide), List.dropWhile_cons_of_pos (by decide),
    List.dropWhile_cons_of_pos (by decide)]
  cases t with
  | nil => rfl
  | cons c u => rw [List.dropWhile_cons_of_neg (by simp [ht c u rfl])]

theorem subLimit_rep200_append (t : List Char)
    (ht : ∀ c u, t = c :: u → c.isDigit = false) :
    subLimit "LIMIT 200".data ("LIMIT 200".data ++ t)
      = "LIMIT 200".data ++ subLimit "LIMIT 200".data t := by
  have hdata : "LIMIT 200".data = 'L':: 'I':: 'M':: 'I':: 'T':: ' ':: '2':: '0':: '0'::[] := rfl
  have hm := matchLimitAt_rep200 t ht
  rw [hdata]
  simp only [List.cons_append, List.nil_append]
  rw [subLimit_cons_some hm]
  simp only [List.cons_append, List.nil_append]

theorem afterLimit5_none_subLimit {t : List Char} (h : afterLimit5 t = none) :
    afterLimit5 (subLimit "LIMIT 200".data t) = none := by
  cases t with
  | nil => exact h
  | cons x xs =>
    by_cases hx : isPySpace x = true
    · rw [subLimit_cons_none (matchLimitAt_head_space _ hx)]
      simp only [afterLimit5, hx, if_true] at h ⊢
      have hsp : ∀ a ∈ xs.takeWhile isPySpace, isPySpace a = true :=
        fun a ha => List.mem_takeWhile_imp ha
      have hxs := subLimit_spaces "LIMIT 200".data (xs.takeWhile isPySpace)
        (xs.dropWhile isPySpace) hsp
      rw [List.takeWhile_append_dropWhile] at hxs
      rw [hxs, dropWhile_space_append _ _ hsp]
      rcases hu : xs.dropWhile isPySpace with _ | ⟨y, ys⟩
      · rfl
      · have hysp : isPySpace y = false := dropWhile_head_false isPySpace xs y ys hu
        have hyd : y.isDigit = false := by
          rw [hu] at h
          simp only [needDigit] at h
          by_contra hc
          rw [Bool.not_eq_false] at hc
          rw [if_pos hc] at h
          exact Option.noConfusion h
        cases hm : matchLimitAt (y :: ys) with
        | some rest =>
          rw [subLimit_cons_some hm]
          rw [show ("LIMIT 200".data ++ subLimit "LIMIT 200".data rest)
              = 'L' :: ("IMIT 200".data ++ subLimit "LIMIT 200".data rest) from rfl]
          rw [List.dropWhile_cons_of_neg (by decide)]
          simp only [needDigit]
          rw [if_neg (by decide)]
        | none =>
          rw [subLimit_cons_none hm, List.dropWhile_cons_of_neg (by simp [hysp])]
          simp only [needDigit]
          rw [if_neg (by simp [hyd])]
    · have hx' : isPySpace x = false := by simpa using hx
      cases hm : matchLimitAt (x :: xs) with
      | some rest =>
        rw [subLimit_cons_some hm]
        rw [show ("LIMIT 200".data ++ subLimit "LIMIT 200".data rest)
            = 'L' :: ("IMIT 200".data ++ subLimit "LIMIT 200".data rest) from rfl]
        simp only [afterLimit5]
        rw [if_neg (by decide)]
      | none =>
        rw [subLimit_cons_none hm]
        simp only [afterLimit5]
        rw [if_neg (by simp [hx'])]

theorem matchLimitAt_none_subLimit {c : Char} {cs : List Char}
    (h : matchLimitAt (c :: cs) = none) :
    matchLimitAt (c :: subLimit "LIMIT 200".data cs) = none := by
  rcases cs with _ | ⟨b, cs1⟩
  · exact h
  cases hm1 : matchLimitAt (b :: cs1) with
  | some r1 =>
    rw [subLimit_cons_some hm1]
    rw [show ("LIMIT 200".data ++ subLimit "LIMIT 200".data r1)
        = 'L':: 'I':: 'M':: 'I'::(('T':: ' ':: '2':: '0':: '0'::[]) ++ subLimit "LIMIT 200".data r1)
        from rfl]
    simp [matchLimitAt, show upperEq 'L' 'I' = false from by decide]
  | none =>
    rw [subLimit_cons_none hm1]
    rcases cs1 with _ | ⟨c2, cs2⟩
    · exact h
    cases hm2 : matchLimitAt (c2 :: cs2) with
    | some r2 =>
      rw [subLimit_cons_some hm2]
      rw [show ("LIMIT 200".data ++ subLimit "LIMIT 200".data r2)
          = 'L':: 'I':: 'M'::(('I':: 'T':: ' ':: '2':: '0':: '0'::[]) ++ subLimit "LIMIT 200".data r2)
          from rfl]
      simp [matchLimitAt, show upperEq 'L' 'M' = false from by decide]
    | none =>
      rw [subLimit_cons_none hm2]
      rcases cs2 with _ | ⟨d, cs3⟩
      · exact h
      cases hm3 : matchLimitAt (d :: cs3) with
      | some r3 =>
        rw [subLimit_cons_some hm3]
        rw [show ("LIMIT 200".data ++ subLimit "LIMIT 200".data r3)
            = 'L':: 'I'::(('M':: 'I':: 'T':: ' ':: '2':: '0':: '0'::[]) ++ subLimit "LIMIT 200".data r3)
            from rfl]
        simp [matchLimitAt, show upperEq 'L' 'I' = false from by decide]
      | none =>
        rw [subLimit_cons_none hm3]
        rcases cs3 with _ | ⟨e, cs4⟩
        · exact h
        cases hm4 : matchLimitAt (e :: cs4) with
        | some r4 =>
          rw [subLimit_cons_some hm4]
          rw [show ("LIMIT 200".data ++ subLimit "LIMIT 200".data r4)
              = 'L'::(('I':: 'M':: 'I':: 'T':: ' ':: '2':: '0':: '0'::[]) ++ subLimit "LIMIT 200".data r4)
              from rfl]
          simp [matchLimitAt, show upperEq 'L' 'T' = false from by decide]
        | none =>
          rw [subLimit_cons_none hm4]
          simp only [matchLimitAt] at h ⊢
          by_cases hC : (upperEq c 'L' && upperEq b 'I' && upperEq c2 'M' && upperEq d 'I'
              && upperEq e 'T') = true
          · rw [if_pos hC] at h ⊢
            exact afterLimit5_none_subLimit h
          · rw [if_neg hC]

theorem subLimit_idem_aux : ∀ (n : Nat) (s : List Char), s.length ≤ n →
    subLimit "LIMIT 200".data (subLimit "LIMIT 200".data s)
      = subLimit "LIMIT 200".data s := by
  intro n
  induction n with
  | zero =>
    intro s h
    have hs : s = [] := List.length_eq_zero.mp (Nat.le_zero.mp h)
    subst hs; rfl
  | succ n ih =>
    intro s h
    cases s with
    | nil => rfl
    | cons c cs =>
      simp only [List.length_cons] at h
      cases hm : matchLimitAt (c :: cs) with
      | some rest =>
        have hl := matchLimitAt_length hm
        simp only [List.length_cons] at hl
        rw [subLimit_cons_some hm]
        have hd : ∀ (c' : Char) (u : List Char),
            subLimit "LIMIT 200".data rest = c' :: u → c'.isDigit = false := by
          intro c' u hcu
          rcases subLimit_head? "LIMIT 200".data rest with hh | ⟨v, hv⟩
          · rw [hcu] at hh
            cases rest with
            | nil =>
              rw [show subLimit "LIMIT 200".data ([] : List Char) = [] from rfl] at hcu
              exact List.noConfusion hcu
            | cons r0 rt =>
              have hc : c' = r0 := by simpa using hh
              rw [hc]
              exact matchLimitAt_rest_not_digit hm r0 rt rfl
          · rw [hv] at hcu
            have hc : c' = 'L' := by
              have := congrArg List.head? hcu
              simpa using this.symm
            rw [hc]; decide
        rw [subLimit_rep200_append _ hd]
        rw [ih rest (by omega)]
      | none =>
        rw [subLimit_cons_none hm, subLimit_cons_none (matchLimitAt_none_subLimit hm),
          ih cs (by omega)]

theorem limit_isPrefixOf_rep200 (X : List Char) :
    "LIMIT".data.isPrefixOf ("LIMIT 200".data ++ X) = true := by
  show ('L':: 'I':: 'M':: 'I':: 'T'::[]).isPrefixOf
    ('L':: 'I':: 'M':: 'I':: 'T':: ' ':: '2':: '0':: '0'::X) = true
  simp [List.isPrefixOf]

theorem subLimit_unchanged_or_contains : ∀ (n : Nat) (s : List Char), s.length ≤ n →
    subLimit "LIMIT 200".data s = s ∨
      containsSub "LIMIT".data ((subLimit "LIMIT 200".data s).map Char.toUpper) = true := by
  intro n
  induction n with
  | zero =>
    intro s h
    have hs : s = [] := List.length_eq_zero.mp (Nat.le_zero.mp h)
    subst hs; left; rfl
  | succ n ih =>
    intro s h
    cases s with
    | nil => left; rfl
    | cons c cs =>
      simp only [List.length_cons] at h
      cases hm : matchLimitAt (c :: cs) with
      | some rest =>
        right
        rw [subLimit_cons_some hm, List.map_append,
          show ("LIMIT 200".data).map Char.toUpper = "LIMIT 200".data from by decide]
        exact containsSub_of_isPrefixOf (limit_isPrefixOf_rep200 _)
      | none =>
        rcases ih cs (by omega) with h1 | h1
        · left; rw [subLimit_cons_none hm, h1]
        · right
          rw [subLimit_cons_none hm, List.map_cons]
          exact containsSub_cons _ h1

theorem isPrefixOf_append_r {n x : List Char} (y : List Char) (h : n.isPrefixOf x = true) :
    n.isPrefixOf (x ++ y) = true := by
  induction n generalizing x with
  | nil => simp [List.isPrefixOf]
  | cons a as ih =>
    cases x with
    | nil => simp [List.isPrefixOf] at h
    | cons b bs =>
      simp only [List.isPrefixOf, Bool.and_eq_true] at h
      simp only [List.cons_append, List.isPrefixOf, Bool.and_eq_true]
      exact ⟨h.1, ih h.2⟩

theorem containsSub_append_left {needle x : List Char} (y : List Char)
    (h : containsSub needle x = true) : containsSub needle (x ++ y) = true := by
  induction x with
  | nil =>
    have hn : needle = [] := by
      simpa [containsSub, List.isEmpty_iff] using h
    subst hn
    cases y with
    | nil => rfl
    | cons c cs => simp [containsSub, List.isPrefixOf]
  | cons a xs ih =>
    simp only [containsSub, Bool.or_eq_true] at h
    simp only [List.cons_append, containsSub, Bool.or_eq_true]
    rcases h with h | h
    · left
      have h2 := isPrefixOf_append_r y h
      rw [List.cons_append] at h2
      exact h2
    · right; exact ih h

theorem containsSub_append_right {needle t : List Char} (s : List Char)
    (h : containsSub needle t = true) : containsSub needle (s ++ t) = true := by
  induction s with
  | nil => simpa using h
  | cons a s' ih =>
    simp only [List.cons_append, containsSub, Bool.or_eq_true]
    right; exact ih

theorem isPrefixOf_of_append : ∀ (n x y : List Char),
    n.isPrefixOf (x ++ y) = true → n.length ≤ x.length → n.isPrefixOf x = true := by
  intro n
  induction n with
  | nil => intro x y _ _; cases x <;> simp [List.isPrefixOf]
  | cons a as ih =>
    intro x y h hl
    cases x with
    | nil => simp at hl
    | cons b bs =>
      simp only [List.cons_append, List.isPrefixOf, Bool.and_eq_true] at h
      simp only [List.length_cons] at hl
      simp only [List.isPrefixOf, Bool.and_eq_true]
      exact ⟨h.1, ih bs y h.2 (by omega)⟩

theorem subLimit_pre_append : ∀ pre : List Char,
    containsSub "LIMIT".data (pre.map Char.toUpper) = false →
    subLimit "LIMIT 200".data (pre ++ " LIMIT 200;".data)
      = pre ++ " LIMIT 200;".data := by
  intro pre
  induction pre with
  | nil =>
    intro _
    simp only [List.nil_append]
    decide
  | cons a pre' ih =>
    intro h
    simp only [List.map_cons, containsSub] at h
    rcases Bool.or_eq_false_iff.mp h with ⟨hpre, htail⟩
    have hmA : matchLimitAt (a :: (pre' ++ " LIMIT 200;".data)) = none := by
      cases hm : matchLimitAt (a :: (pre' ++ " LIMIT 200;".data)) with
      | none => rfl
      | some r =>
        exfalso
        have hdata : " LIMIT 200;".data
            = ' ':: 'L':: 'I':: 'M':: 'I':: 'T':: ' ':: '2':: '0':: '0':: ';'::[] := rfl
        rcases pre' with _ | ⟨b, _ | ⟨c2, _ | ⟨d, _ | ⟨e, pre''⟩⟩⟩⟩
        · rw [List.nil_append, hdata] at hm
          simp [matchLimitAt, show upperEq ' ' 'I' = false from by decide] at hm
        · rw [List.cons_append, List.nil_append, hdata] at hm
          simp [matchLimitAt, show upperEq ' ' 'M' = false from by decide] at hm
        · rw [List.cons_append, List.cons_append, List.nil_append, hdata] at hm
          simp [matchLimitAt, show upperEq ' ' 'I' = false from by decide] at hm
        · rw [List.cons_append, List.cons_append, List.cons_append, List.nil_append,
            hdata] at hm
          simp [matchLimitAt, show upperEq ' ' 'T' = false from by decide] at hm
        · have hp := matchLimitAt_isPrefixOf hm
          rw [show (a :: ((b::c2::d::e::pre'') ++ " LIMIT 200;".data))
              = (a::b::c2::d::e::pre'') ++ " LIMIT 200;".data from rfl,
            List.map_append] at hp
          have h5 : ("LIMIT".data).length ≤ ((a::b::c2::d::e::pre'').map Char.toUpper).length := by
            simp
          have hres := isPrefixOf_of_append _ _ _ hp h5
          rw [List.map_cons] at hres
          rw [hres] at hpre
          exact Bool.noConfusion hpre
    rw [List.cons_append, subLimit_cons_none hmA, ih htail]

theorem pyRstrip_eq_append (s : List Char) : ∃ u, s = pyRstrip s ++ u := by
  refine ⟨(s.reverse.takeWhile isPySpace).reverse, ?_⟩
  unfold pyRstrip
  calc s = s.reverse.reverse := (List.reverse_reverse s).symm
    _ = (s.reverse.takeWhile isPySpace ++ s.reverse.dropWhile isPySpace).reverse := by
          rw [List.takeWhile_append_dropWhile]
    _ = (s.reverse.dropWhile isPySpace).reverse ++ (s.reverse.takeWhile isPySpace).reverse := by
          rw [List.reverse_append]

theorem pyRstripSemi_eq_append (s : List Char) : ∃ u, s = pyRstripSemi s ++ u := by
  refine ⟨(s.reverse.takeWhile (fun c => c == ';')).reverse, ?_⟩
  unfold pyRstripSemi
  calc s = s.reverse.reverse := (List.reverse_reverse s).symm
    _ = (s.reverse.takeWhile (fun c => c == ';')
          ++ s.reverse.dropWhile (fun c => c == ';')).reverse := by
          rw [List.takeWhile_append_dropWhile]
    _ = (s.reverse.dropWhile (fun c => c == ';')).reverse
          ++ (s.reverse.takeWhile (fun c => c == ';')).reverse := by
          rw [List.reverse_append]

theorem pre_prefix (s : List Char) : ∃ u, s = pyRstripSemi (pyRstrip s) ++ u := by
  obtain ⟨u1, h1⟩ := pyRstrip_eq_append s
  obtain ⟨u2, h2⟩ := pyRstripSemi_eq_append (pyRstrip s)
  exact ⟨u2 ++ u1, by rw [← List.append_assoc, ← h2, ← h1]⟩

/-! Claim theorems. -/

/-- C1 (code bug exhibit): the statement `SELECT limit_col FROM dev_diamond2`
is accepted by `validate`, yet `enforce_limit` returns it unchanged — it
contains no `LIMIT <n>` clause at all, because the substring test
`'LIMIT' in sql.upper()` fires on `limit_col` and the numeric substitution
then matches nothing, so no clause is appended either; the output therefore
does not contain exactly one `LIMIT` clause with a value at most the policy
maximum, contradicting the claim and the method's own docstring
("Ensure SQL has a LIMIT clause"). -/
theorem C1_enforce_limit_drops_clause :
    validate settingsPolicy "SELECT limit_col FROM dev_diamond2".data = .accepted ∧
    enforce_limit settingsPolicy "SELECT limit_col FROM dev_diamond2".data none
      = "SELECT limit_col FROM dev_diamond2".data ∧
    hasLimitNumClause "SELECT limit_col FROM dev_diamond2".data = false := by
  refine ⟨by decide, by decide, by decide⟩

/-- C2 (counterexample): `SELECT 1; DROP TABLE x;` contains the denylisted
keyword `DROP` as a standalone word, yet `validate` rejects it with
`MultipleStatements`, not `ForbiddenKeyword`, because the multi-statement
check runs before the keyword scan. -/
theorem C2_counterexample :
    containsKeywordWord "SELECT 1; DROP TABLE x;".data = true ∧
    validate settingsPolicy "SELECT 1; DROP TABLE x;".data
      = .rejected .multipleStatements := by
  refine ⟨by decide, by decide⟩

/-- C2 (amended): for every string that passes the empty, multi-statement and
parse checks, if the comment-stripped uppercased text contains any denylisted
keyword as a standalone word then `validate` rejects with `ForbiddenKeyword`,
reporting the first keyword in the fixed list order that matches (even when
the keyword appears inside what looks like a string literal). -/
theorem C2_forbidden_keyword (p : Policy) (s : List Char)
    (h1 : pyStrip s ≠ [])
    (h2 : ';' ∉ pyRstripSemi (cleanOf s))
    (h3 : cleanOf s ≠ [])
    (h4 : ∃ kw ∈ DANGEROUS_KEYWORDS,
      hasWordMatch kw ((cleanOf s).map Char.toUpper) = true) :
    ∃ kw, List.find? (fun kw => hasWordMatch kw ((cleanOf s).map Char.toUpper))
        DANGEROUS_KEYWORDS = some kw ∧
      validate p s = .rejected (.forbiddenKeyword kw) := by
  have hfind : (List.find? (fun kw => hasWordMatch kw ((cleanOf s).map Char.toUpper))
      DANGEROUS_KEYWORDS).isSome = true := by
    rcases h4 with ⟨kw, hmem, hmatch⟩
    rcases hf : List.find? (fun kw => hasWordMatch kw ((cleanOf s).map Char.toUpper))
        DANGEROUS_KEYWORDS with _ | kw'
    · exact absurd hmatch (by simpa using List.find?_eq_none.mp hf kw hmem)
    · rfl
  obtain ⟨kw, hkw⟩ := Option.isSome_iff_exists.mp hfind
  refine ⟨kw, hkw, ?_⟩
  unfold validate
  rw [if_neg h1, if_neg h2, if_neg h3, hkw]

/-- C2 (witness): a keyword inside what looks like a string literal is still
reported, with the first matching keyword of the list. -/
theorem C2_witness :
    ∃ kw, List.find? (fun kw => hasWordMatch kw
        ((cleanOf "SELECT * FROM dev_diamond2 WHERE note = 'please DROP this'".data).map
          Char.toUpper)) DANGEROUS_KEYWORDS = some kw ∧
      validate settingsPolicy
        "SELECT * FROM dev_diamond2 WHERE note = 'please DROP this'".data
        = .rejected (.forbiddenKeyword kw) :=
  C2_forbidden_keyword settingsPolicy _ (by decide) (by decide) (by decide) (by decide)

/-- C3 (counterexample): for `SELECT * FROM dev_diamond2;;`, stripping a
single trailing `;` leaves a `;` in the text, so the claim demands
`Rejected(MultipleStatements)`; but the code strips all trailing `;`
characters (`rstrip(';')`) and accepts the statement. -/
theorem C3_counterexample :
    ';' ∈ stripOneTrailingSemi (cleanOf "SELECT * FROM dev_diamond2;;".data) ∧
    validate settingsPolicy "SELECT * FROM dev_diamond2;;".data = .accepted := by
  refine ⟨by decide, by decide⟩

/-- C3 (amended): for every statement whose trimmed text is non-empty,
`validate` returns `Rejected(MultipleStatements)` if and only if, after
removing `--` line comments and `/* */` block comments and then stripping all
trailing `;` characters, at least one `;` remains in the text. -/
theorem C3_multiple_statements (p : Policy) (s : List Char)
    (h1 : pyStrip s ≠ []) :
    validate p s = .rejected .multipleStatements ↔
      ';' ∈ pyRstripSemi (cleanOf s) := by
  unfold validate
  rw [if_neg h1]
  by_cases h2 : ';' ∈ pyRstripSemi (cleanOf s)
  · simp [h2]
  · rw [if_neg h2]
    simp only [h2, iff_false]
    split
    · simp
    · split
      · simp
      · split
        · simp
        · split
          · simp
          · simp

/-- C3 (witness): a two-statement string is rejected as `MultipleStatements`. -/
theorem C3_witness :
    validate settingsPolicy "SELECT * FROM dev_diamond2; SELECT * FROM users;".data
      = .rejected .multipleStatements :=
  (C3_multiple_statements settingsPolicy _ (by decide)).mpr (by decide)

/-- C4 (counterexample): with an explicit requested limit of `0`, the claim's
formula gives `min(0, 1000) = 0`, but the code treats `0` as absent
(`limit or settings.DEFAULT_QUERY_LIMIT`) and writes the default `LIMIT 200`. -/
theorem C4_counterexample :
    enforce_limit settingsPolicy "SELECT * FROM dev_diamond2".data (some 0)
      = "SELECT * FROM dev_diamond2 LIMIT 200;".data ∧
    min (0 : Int) settingsPolicy.max_limit = 0 := by
  refine ⟨by decide, by decide⟩

/-- C4 (amended): the effective limit is
`min(requested-if-provided-and-nonzero-else-default, max_limit)` (a requested
limit of `0` is treated as absent); and whenever an actual `LIMIT <n>` clause
exists, `enforce_limit` rewrites the statement by replacing every
`LIMIT <n>` occurrence in place with `LIMIT <effective>`, regardless of the
original value.  The concrete conjunct shows an original value already below
the cap being replaced. -/
theorem C4_effective_limit :
    (∀ (p : Policy) (req : Option Int),
      effLimit p req =
        min (match req with
             | none => p.default_limit
             | some v => if v = 0 then p.default_limit else v) p.max_limit) ∧
    (∀ (p : Policy) (s : List Char) (req : Option Int),
      hasLimitNumClause s = true →
      enforce_limit p s req = subLimit (limitRep (effLimit p req)) s) ∧
    enforce_limit settingsPolicy "SELECT * FROM dev_diamond2 LIMIT 10".data (some 5)
      = "SELECT * FROM dev_diamond2 LIMIT 5".data := by
  refine ⟨?_, ?_, by decide⟩
  · intro p req
    unfold effLimit
    rcases req with _ | v
    · simp only []
      rw [min_def]
      split <;> split <;> omega
    · simp only []
      split
      · rw [min_def]; split <;> split <;> omega
      · rw [min_def]; split <;> split <;> omega
  · intro p s req h
    have hc := hasLimitNumClause_containsSub s h
    unfold enforce_limit
    rw [if_pos hc]

/-- C4 (witness): an existing clause is rewritten to the requested limit. -/
theorem C4_witness :
    enforce_limit settingsPolicy "SELECT a FROM dev_diamond2 LIMIT 7".data (some 5)
      = subLimit (limitRep (effLimit settingsPolicy (some 5)))
          "SELECT a FROM dev_diamond2 LIMIT 7".data :=
  C4_effective_limit.2.1 settingsPolicy _ (some 5) (by decide)

/-- C5 (confirmed): for every statement passing the earlier validation steps,
`validate` rejects with `TableNotAllowed` exactly when the allowed table name
does not occur as a case-insensitive substring of the comment-stripped text;
and the spec's concrete example is rejected with `TableNotAllowed`. -/
theorem C5_table_scope :
    (∀ (p : Policy) (s : List Char),
      pyStrip s ≠ [] →
      ';' ∉ pyRstripSemi (cleanOf s) →
      cleanOf s ≠ [] →
      List.find? (fun kw => hasWordMatch kw ((cleanOf s).map Char.toUpper))
        DANGEROUS_KEYWORDS = none →
      "SELECT".data.isPrefixOf (pyStrip ((cleanOf s).map Char.toUpper)) = true →
      (validate p s = .rejected .tableNotAllowed ↔
        containsSub (p.allowed_table.map Char.toLower)
          ((cleanOf s).map Char.toLower) = false)) ∧
    validate settingsPolicy "SELECT * FROM other_table LIMIT 10;".data
      = .rejected .tableNotAllowed := by
  constructor
  · intro p s h1 h2 h3 h4 h5
    unfold validate
    rw [if_neg h1, if_neg h2, if_neg h3, h4, h5]
    rcases hc : containsSub (p.allowed_table.map Char.toLower)
        ((cleanOf s).map Char.toLower) with _ | _ <;> simp [hc]
  · decide

/-- C5 (witness): a statement passing the earlier steps but not referencing
the allowed table is rejected with `TableNotAllowed`. -/
theorem C5_witness :
    validate settingsPolicy "SELECT 99".data = .rejected .tableNotAllowed :=
  (C5_table_scope.1 settingsPolicy _ (by decide) (by decide) (by decide)
    (by decide) (by decide)).mpr (by decide)

/-- C6 (counterexample): on the input `SELECT 1;;` the extractor returns the
text unchanged, which ends with two trailing `;` characters — not exactly
one, as the claim demands. -/
theorem C6_counterexample :
    extract_sql "SELECT 1;;".data = "SELECT 1;;".data ∧
    (("SELECT 1;;".data.reverse.takeWhile (fun c => c == ';')).length = 2) := by
  refine ⟨by decide, by decide⟩

/-- C6 (amended): the extractor drops blank lines and lines beginning with
`#` or `--`, joins the surviving lines with single spaces stopping at (and
including) the first line ending in `;`, and its output always ends with a
trailing `;` — one is appended when the kept text does not already end in
`;`; when it does, the text is returned as is, so the output ends with at
least one (not always exactly one) `;`. -/
theorem C6_extract_ends_semi (r : List Char) :
    ∃ t, extract_sql r = t ++ [';'] :=
  appendSemi_ends _

/-- C7 (confirmed): under the shipped policy, `enforce_limit` is idempotent —
applying it twice (with no requested limit) returns exactly the statement
produced by one application, so in particular the `LIMIT` value is the same. -/
theorem C7_enforce_limit_idempotent (s : List Char) :
    enforce_limit settingsPolicy (enforce_limit settingsPolicy s none) none
      = enforce_limit settingsPolicy s none := by
  have hrep : limitRep (effLimit settingsPolicy none) = "LIMIT 200".data := by decide
  by_cases hb : containsSub "LIMIT".data (s.map Char.toUpper) = true
  · have h1 : enforce_limit settingsPolicy s none = subLimit "LIMIT 200".data s := by
      unfold enforce_limit
      rw [if_pos hb, hrep]
    rw [h1]
    have hcond : containsSub "LIMIT".data
        ((subLimit "LIMIT 200".data s).map Char.toUpper) = true := by
      rcases subLimit_unchanged_or_contains s.length s (Nat.le_refl _) with h2 | h2
      · rw [h2]; exact hb
      · exact h2
    unfold enforce_limit
    rw [if_pos hcond, hrep]
    exact subLimit_idem_aux s.length s (Nat.le_refl _)
  · have hb' : containsSub "LIMIT".data (s.map Char.toUpper) = false :=
      Bool.not_eq_true _ ▸ (by simpa using hb)
    have hpre : containsSub "LIMIT".data
        ((pyRstripSemi (pyRstrip s)).map Char.toUpper) = false := by
      by_contra hc
      rw [Bool.not_eq_false] at hc
      obtain ⟨u, hu⟩ := pre_prefix s
      have hs : containsSub "LIMIT".data (s.map Char.toUpper) = true := by
        rw [hu, List.map_append]
        exact containsSub_append_left _ hc
      rw [hs] at hb'
      exact Bool.noConfusion hb'
    have h1 : enforce_limit settingsPolicy s none
        = pyRstripSemi (pyRstrip s) ++ " LIMIT 200;".data := by
      unfold enforce_limit
      rw [if_neg hb]
      rw [List.append_assoc, List.append_assoc]
      congr 1
    rw [h1]
    have hcond2 : containsSub "LIMIT".data
        ((pyRstripSemi (pyRstrip s) ++ " LIMIT 200;".data).map Char.toUpper) = true := by
      rw [List.map_append]
      exact containsSub_append_right _ (by decide)
    unfold enforce_limit
    rw [if_pos hcond2, hrep]
    exact subLimit_pre_append _ hpre

/-- C8 (confirmed): `validate` rejects the empty string and every string of
only whitespace with `EmptyQuery`. -/
theorem C8_empty_query (p : Policy) (s : List Char)
    (h : ∀ c ∈ s, isPySpace c = true) :
    validate p s = .rejected .emptyQuery := by
  have hs : pyStrip s = [] := by
    unfold pyStrip
    rw [List.dropWhile_eq_nil_iff.mpr h]
    rfl
  unfold validate
  rw [if_pos hs]

/-- C8 (witness): a whitespace-only string is rejected as `EmptyQuery`. -/
theorem C8_witness :
    validate settingsPolicy "   ".data = .rejected .emptyQuery :=
  C8_empty_query settingsPolicy _ (by decide)

/-- C10 (confirmed): a requested limit of `0` is treated exactly like an
absent limit (Python's `limit or settings.DEFAULT_QUERY_LIMIT` is falsy on
`0`), so `enforce_limit` applies the policy default; in the shipped
configuration the effective limit is `200`, never `0`. -/
theorem C10_zero_limit_uses_default :
    (∀ (p : Policy) (s : List Char),
      enforce_limit p s (some 0) = enforce_limit p s none) ∧
    effLimit settingsPolicy (some 0) = 200 := by
  constructor
  · intro p s
    unfold enforce_limit effLimit
    norm_num
  · decide

end DiamondChat
